import Mathlib

/-!
Shallow embedding of the log-text parsing core of GodMode9's
`arm9/source/utils/sysinfo.c`: the streaming line splitter
`SysInfo_ParseText`, the comma tokenizer `SysInfo_CommaSplit`, the digit
predicate `SysInfo_IsOnlyDigits`, and the two line consumers
`SysInfoLineParser_InspectLog` and `SysInfoLineParser_ProductLog`.

Bytes are modelled as `Nat` (13 = CR, 10 = LF, 44 = comma, 32 = space,
45 = dash).  A file is a list of read results: `some bytes` is a
successful `fvx_read` delivery of those bytes, `none` is a failing read
(`fvx_read` returning something other than `FR_OK`).  The splitter's
fixed 512-byte stack buffer is a `List Nat` whose length never exceeds
512.  The sequence of consumer invocations is modelled as the list of
line byte-strings passed to `line_parser`.
-/

namespace GM9

/-- Size of the `char buffer[512]` in `SysInfo_ParseText`. -/
def CAPACITY : Nat := 512

/-- A byte is a line terminator when it is CR (13) or LF (10); these are the
two bytes the inner loop of `SysInfo_ParseText` locates with `memchr`. -/
def isTerm (b : Nat) : Bool := b == 13 || b == 10

/-- Result of one pass of the inner terminator-scanning loop of
`SysInfo_ParseText` over the filled region of the buffer. -/
structure ScanOut where
  lines : List (List Nat)
  leftover : List Nat
  skip : Bool
  prevCr : Bool

/-- Inner loop of `SysInfo_ParseText` (sysinfo.c lines 486-530): walk the
filled buffer; at each terminator (the earlier of the first CR and first LF,
i.e. the first byte that is CR or LF) the bytes accumulated since the last
terminator form the segment.  The segment is reported unless `skip_line` is
set, or it is empty, the terminator is LF and `prev_cr` is set.  Then
`skip_line` clears and `prev_cr` records whether this terminator was CR.
`acc` holds the bytes of the current segment scanned so far and `leftover`
is what `memmove` keeps at the front of the buffer. -/
def scanText : List Nat → Bool → Bool → List Nat → ScanOut
  | [], skip, prevCr, acc => ⟨[], acc, skip, prevCr⟩
  | b :: bs, skip, prevCr, acc =>
    if isTerm b then
      let r := scanText bs false (b == 13) []
      ⟨(if !skip && (!acc.isEmpty || b != 10 || !prevCr) then acc :: r.lines else r.lines),
        r.leftover, r.skip, r.prevCr⟩
    else
      scanText bs skip prevCr (acc ++ [b])

/-- Total number of bytes held in a list of read results. -/
def chunkBytes : List (Option (List Nat)) → Nat
  | [] => 0
  | none :: _ => 0
  | some c :: rest => c.length + chunkBytes rest

/-- Concatenation of the bytes a list of read results can deliver
(a failing read ends the stream). -/
def concatChunks : List (Option (List Nat)) → List Nat
  | [] => []
  | none :: _ => []
  | some c :: rest => c ++ concatChunks rest

/-- Main loop of `SysInfo_ParseText` (sysinfo.c lines 462-536), one
recursive call per iteration of the outer `for (;;)`.  `fuel` bounds the
number of iterations (the C loop terminates because the file is finite;
`SysInfo_ParseText` below supplies enough fuel).  Each iteration:
if the buffer is full, discard it and set `skip_line` (the `continue`);
otherwise read up to `CAPACITY - filled` bytes from the head chunk
(a failing read or a zero-length read breaks out and flushes any
unconsumed bytes as a final line), append them to the buffer, and run the
terminator scan. -/
def parseLoop : Nat → List (Option (List Nat)) → List Nat → Bool → Bool → List (List Nat)
  | 0, _, _, _, _ => []
  | fuel + 1, chunks, buf, skip, prevCr =>
    if CAPACITY ≤ buf.length then
      parseLoop fuel chunks [] true prevCr
    else
      match chunks with
      | [] => if buf.isEmpty then [] else [buf]
      | none :: _ => if buf.isEmpty then [] else [buf]
      | some c :: rest =>
        let now := CAPACITY - buf.length
        let taken := c.take now
        if taken.isEmpty then (if buf.isEmpty then [] else [buf])
        else
          let rest' := if now < c.length then some (c.drop now) :: rest else rest
          let r := scanText (buf ++ taken) skip prevCr []
          r.lines ++ parseLoop fuel rest' r.leftover r.skip r.prevCr

/-- `SysInfo_ParseText` (sysinfo.c lines 455-537): drive the read results to
exhaustion and return the sequence of lines handed to `line_parser`.
`2 * chunkBytes chunks + 2` iterations always suffice: every iteration
either consumes at least one byte of the stream or is a buffer-full reset,
and resets never happen twice in a row. -/
def SysInfo_ParseText (chunks : List (Option (List Nat))) : List (List Nat) :=
  parseLoop (2 * chunkBytes chunks + 2) chunks [] false false

/-- A byte string containing no CR and no LF. -/
def noTerm (l : List Nat) : Prop := ∀ b ∈ l, isTerm b = false

instance (l : List Nat) : Decidable (noTerm l) :=
  inferInstanceAs (Decidable (∀ b ∈ l, isTerm b = false))

/-- The terminator-delimited segments of a byte stream (every CR and every
LF individually closes a segment; the final, unterminated segment is
included, and `acc` is the part of the current segment already seen). -/
def lineSegs (acc : List Nat) : List Nat → List (List Nat)
  | [] => [acc]
  | b :: bs => if isTerm b then acc :: lineSegs [] bs else lineSegs (acc ++ [b]) bs

/-- Bytes of the current (last, unterminated) segment after scanning `s`,
starting from a partial segment `acc`: this is the leftover the buffer
carries between reads. -/
def carryAcc (acc : List Nat) : List Nat → List Nat
  | [] => acc
  | b :: bs => if isTerm b then carryAcc [] bs else carryAcc (acc ++ [b]) bs

/-- One-pass reference semantics of the splitter on a fully assembled byte
stream: scan it once from state (`skip`, `pending`, `prevCr`) and flush any
nonempty unterminated tail as a final line. -/
def specLines (skip : Bool) (pending : List Nat) (prevCr : Bool) (s : List Nat) :
    List (List Nat) :=
  let r := scanText s skip prevCr pending
  r.lines ++ (if r.leftover.isEmpty then [] else [r.leftover])

/-- Join line contents, appending the terminator byte string `t` after each. -/
def styleJoin (t : List Nat) (contents : List (List Nat)) : List Nat :=
  (contents.map (fun l => l ++ t)).flatten

/-- Split a byte string at its first comma (44), if any: the bytes before it
and the bytes after it (this is the `memchr(line, ',', line_length)` step of
`SysInfo_CommaSplit`). -/
def splitComma : List Nat → Option (List Nat × List Nat)
  | [] => none
  | b :: bs =>
    if b == 44 then some ([], bs)
    else (splitComma bs).map (fun p => (b :: p.1, p.2))

/-- Loop of `SysInfo_CommaSplit` (sysinfo.c lines 559-580) with `budget`
remaining entry slots (`max_entries - index`).  If no comma is found, or this
is the last slot, the whole remaining line becomes the entry; otherwise the
bytes before the comma become the entry and scanning resumes after the
comma.  (`budget = 0` is unreachable from `SysInfo_CommaSplit`.) -/
def commaSplitLoop : Nat → List Nat → List (List Nat)
  | 0, line => [line]
  | budget + 1, line =>
    match splitComma line with
    | none => [line]
    | some (field, rest) =>
      if budget = 0 then [line] else field :: commaSplitLoop budget rest

/-- `SysInfo_CommaSplit` (sysinfo.c lines 553-581), with each `(starts[i],
lengths[i])` descriptor rendered as the byte string it designates. -/
def SysInfo_CommaSplit (max_entries : Nat) (line : List Nat) : List (List Nat) :=
  if max_entries = 0 then [] else commaSplitLoop max_entries line

/-- `SysInfo_IsOnlyDigits` (sysinfo.c lines 541-549): every byte is an ASCII
decimal digit. -/
def SysInfo_IsOnlyDigits (s : List Nat) : Prop := ∀ b ∈ s, 48 ≤ b ∧ b ≤ 57

instance (s : List Nat) : Decidable (SysInfo_IsOnlyDigits s) :=
  inferInstanceAs (Decidable (∀ b ∈ s, 48 ≤ b ∧ b ≤ 57))

/-- Bytes of the literal `"CommentUpdated="`. -/
def commentUpdatedTag : List Nat :=
  [67, 111, 109, 109, 101, 110, 116, 85, 112, 100, 97, 116, 101, 100, 61]

/-- `SysInfoLineParser_InspectLog` (sysinfo.c lines 585-601): if the line
begins with `"CommentUpdated="`, overwrite `assembly_date` with the rest of
the line truncated to the field's capacity (`countof(info->assembly_date)
- 1 = 19`); otherwise leave the field alone.  The state is the current
contents of `info->assembly_date`. -/
def SysInfoLineParser_InspectLog (assembly_date : List Nat) (line : List Nat) : List Nat :=
  if line.length < commentUpdatedTag.length then assembly_date
  else if line.take commentUpdatedTag.length ≠ commentUpdatedTag then assembly_date
  else (line.drop commentUpdatedTag.length).take 19

/-- Bytes of the literal `"DataList"`. -/
def dataListBytes : List Nat := [68, 97, 116, 97, 76, 105, 115, 116]

/-- Bytes of the literal `"nup:"`. -/
def nupTag : List Nat := [110, 117, 112, 58]

/-- Bytes of the literal `"cup:"`. -/
def cupTag : List Nat := [99, 117, 112, 58]

/-- Advance past the current token and the following run of spaces: the two
`while` scans of `SysInfoLineParser_ProductLog` (sysinfo.c lines 641-651). -/
def wsSkip (v : List Nat) : List Nat :=
  (v.dropWhile (fun b => b != 32)).dropWhile (fun b => b == 32)

/-- The current token: bytes up to the next space or the end of the field
(sysinfo.c lines 640-645). -/
def tokenTake (v : List Nat) : List Nat := v.takeWhile (fun b => b != 32)

/-- The `nup:`/`cup:` mini-format parse of `SysInfoLineParser_ProductLog`
(sysinfo.c lines 630-683) applied to the `verinfo` field: on success the
composed `cup-nup` value replaces `original_firmware`, provided it fits in
`countof(info->original_firmware) = 16` bytes counting the added dash and
the NUL terminator; on any failure the field is returned unchanged.
(The two `SIZE_MAX` overflow guards of the C code are identically false
over `Nat` and are omitted; they too leave the field unchanged.) -/
def parseVer (original_firmware : List Nat) (v : List Nat) : List Nat :=
  if v.length < 4 then original_firmware
  else if v.take 4 ≠ nupTag then original_firmware
  else if (wsSkip (v.drop 4)).length < 4 then original_firmware
  else if (wsSkip (v.drop 4)).take 4 ≠ cupTag then original_firmware
  else if 16 < (tokenTake ((wsSkip (v.drop 4)).drop 4)).length + 1 +
      (tokenTake (v.drop 4)).length + 1 then original_firmware
  else tokenTake ((wsSkip (v.drop 4)).drop 4) ++ [45] ++ tokenTake (v.drop 4)

/-- `SysInfoLineParser_ProductLog` (sysinfo.c lines 608-684): split the line
on commas into at most 10 entries; require at least 2 entries, a nonempty
all-digit first entry, `"DataList"` as the second entry, at least 8 entries,
`"OK"` as the third; then parse the eighth entry with `parseVer`.  The state
is the current contents of `info->original_firmware`. -/
def SysInfoLineParser_ProductLog (original_firmware : List Nat) (line : List Nat) : List Nat :=
  match SysInfo_CommaSplit 10 line with
  | e0 :: e1 :: rest =>
    if e0.length = 0 ∨ ¬ SysInfo_IsOnlyDigits e0 then original_firmware
    else if e1 = dataListBytes then
      match rest with
      | e2 :: _ :: _ :: _ :: _ :: e7 :: _ =>
        if e2 ≠ [79, 75] then original_firmware
        else parseVer original_firmware e7
      | _ => original_firmware
    else original_firmware
  | _ => original_firmware

/-! ## Properties of the terminator scan -/

theorem scanText_append (s t : List Nat) : ∀ sk pc acc,
    scanText (s ++ t) sk pc acc =
      ⟨(scanText s sk pc acc).lines ++
          (scanText t (scanText s sk pc acc).skip (scanText s sk pc acc).prevCr
            (scanText s sk pc acc).leftover).lines,
        (scanText t (scanText s sk pc acc).skip (scanText s sk pc acc).prevCr
          (scanText s sk pc acc).leftover).leftover,
        (scanText t (scanText s sk pc acc).skip (scanText s sk pc acc).prevCr
          (scanText s sk pc acc).leftover).skip,
        (scanText t (scanText s sk pc acc).skip (scanText s sk pc acc).prevCr
          (scanText s sk pc acc).leftover).prevCr⟩ := by
  induction s with
  | nil => intro sk pc acc; simp [scanText]
  | cons b bs ih =>
    intro sk pc acc
    by_cases hb : isTerm b
    · simp only [List.cons_append, scanText, hb, if_true, List.append_eq]
      rw [ih false (b == 13) []]
      split <;> simp
    · simp only [List.cons_append, scanText, hb, Bool.false_eq_true, if_false, List.append_eq]
      exact ih sk pc (acc ++ [b])

theorem scanText_shift (m : List Nat) (hm : noTerm m) : ∀ (s : List Nat) sk pc acc,
    scanText (m ++ s) sk pc acc = scanText s sk pc (acc ++ m) := by
  induction m with
  | nil => intro s sk pc acc; simp
  | cons b bs ih =>
    intro s sk pc acc
    have hb : isTerm b = false := hm b (by simp)
    have hbs : noTerm bs := fun x hx => hm x (by simp [hx])
    simp only [List.cons_append, scanText, hb, Bool.false_eq_true, if_false, List.append_eq]
    rw [ih hbs]
    simp

theorem scanText_noTerm (s : List Nat) (hs : noTerm s) (sk pc : Bool) (acc : List Nat) :
    scanText s sk pc acc = ⟨[], acc ++ s, sk, pc⟩ := by
  have h := scanText_shift s hs [] sk pc acc
  simpa [scanText] using h

theorem scanText_leftover_carry (s : List Nat) : ∀ sk pc acc,
    (scanText s sk pc acc).leftover = carryAcc acc s := by
  induction s with
  | nil => intro sk pc acc; simp [scanText, carryAcc]
  | cons b bs ih =>
    intro sk pc acc
    by_cases hb : isTerm b
    · simp [scanText, carryAcc, hb, ih]
    · simp [scanText, carryAcc, hb, ih]

theorem carryAcc_noTerm (s : List Nat) : ∀ acc, noTerm acc → noTerm (carryAcc acc s) := by
  induction s with
  | nil => intro acc h; simpa [carryAcc] using h
  | cons b bs ih =>
    intro acc h
    by_cases hb : isTerm b
    · simp only [carryAcc, hb, if_true]
      exact ih [] (by intro x hx; simp at hx)
    · simp only [carryAcc, hb, Bool.false_eq_true, if_false]
      refine ih (acc ++ [b]) ?_
      intro x hx
      rcases List.mem_append.mp hx with h1 | h1
      · exact h x h1
      · simp at h1; subst h1; simpa using hb

/-! ## Properties of line segments -/

theorem lineSegs_ne_nil (s : List Nat) : ∀ acc, lineSegs acc s ≠ [] := by
  induction s with
  | nil => intro acc; simp [lineSegs]
  | cons b bs ih =>
    intro acc
    by_cases hb : isTerm b <;> simp [lineSegs, hb, ih]

theorem lineSegs_head_ext (s : List Nat) : ∀ acc, ∃ ext, acc ++ ext ∈ lineSegs acc s := by
  induction s with
  | nil => intro acc; exact ⟨[], by simp [lineSegs]⟩
  | cons b bs ih =>
    intro acc
    by_cases hb : isTerm b
    · exact ⟨[], by simp [lineSegs, hb]⟩
    · obtain ⟨ext, hext⟩ := ih (acc ++ [b])
      refine ⟨[b] ++ ext, ?_⟩
      simp only [lineSegs, hb, Bool.false_eq_true, if_false]
      simpa [List.append_assoc] using hext

theorem lineSegs_append (s : List Nat) : ∀ t acc,
    lineSegs acc (s ++ t) = (lineSegs acc s).dropLast ++ lineSegs (carryAcc acc s) t := by
  induction s with
  | nil => intro t acc; simp [lineSegs, carryAcc]
  | cons b bs ih =>
    intro t acc
    by_cases hb : isTerm b
    · simp only [List.cons_append, lineSegs, hb, if_true, carryAcc, List.append_eq]
      rw [ih t [], List.dropLast_cons_of_ne_nil (lineSegs_ne_nil bs [])]
      simp
    · simp only [List.cons_append, lineSegs, hb, Bool.false_eq_true, if_false, carryAcc, List.append_eq]
      exact ih t (acc ++ [b])

theorem lineSegs_shift (m : List Nat) (hm : noTerm m) : ∀ (s : List Nat) acc,
    lineSegs acc (m ++ s) = lineSegs (acc ++ m) s := by
  induction m with
  | nil => intro s acc; simp
  | cons b bs ih =>
    intro s acc
    have hb : isTerm b = false := hm b (by simp)
    have hbs : noTerm bs := fun x hx => hm x (by simp [hx])
    simp only [List.cons_append, lineSegs, hb, Bool.false_eq_true, if_false, List.append_eq]
    rw [ih hbs]
    simp

theorem specLines_shift (m : List Nat) (hm : noTerm m) (s : List Nat) (sk pc : Bool)
    (p : List Nat) : specLines sk p pc (m ++ s) = specLines sk (p ++ m) pc s := by
  simp [specLines, scanText_shift m hm]

/-! ## Properties of the main loop -/

theorem take_pos_ne_nil {c : List Nat} {n : Nat} (hc : c ≠ []) (hn : 0 < n) :
    c.take n ≠ [] := by
  rw [Ne, List.take_eq_nil_iff]
  rintro (h | h)
  · omega
  · exact hc h

theorem parseLoop_reset (fuel : Nat) (chunks : List (Option (List Nat))) (buf : List Nat)
    (sk pc : Bool) (h : CAPACITY ≤ buf.length) :
    parseLoop (fuel + 1) chunks buf sk pc = parseLoop fuel chunks [] true pc := by
  match chunks with
  | [] => conv_lhs => rw [parseLoop, if_pos h]
  | none :: rest => conv_lhs => rw [parseLoop, if_pos h]
  | some c :: rest => conv_lhs => rw [parseLoop, if_pos h]

theorem parseLoop_eof (fuel : Nat) (buf : List Nat) (sk pc : Bool)
    (h : ¬ CAPACITY ≤ buf.length) :
    parseLoop (fuel + 1) [] buf sk pc = if buf.isEmpty then [] else [buf] := by
  conv_lhs => rw [parseLoop, if_neg h]

theorem parseLoop_readErr (fuel : Nat) (rest : List (Option (List Nat))) (buf : List Nat)
    (sk pc : Bool) (h : ¬ CAPACITY ≤ buf.length) :
    parseLoop (fuel + 1) (none :: rest) buf sk pc = if buf.isEmpty then [] else [buf] := by
  conv_lhs => rw [parseLoop, if_neg h]

theorem parseLoop_emptyRead (fuel : Nat) (rest : List (Option (List Nat))) (buf : List Nat)
    (sk pc : Bool) (h : ¬ CAPACITY ≤ buf.length) :
    parseLoop (fuel + 1) (some [] :: rest) buf sk pc = if buf.isEmpty then [] else [buf] := by
  conv_lhs => rw [parseLoop, if_neg h]
  simp

theorem parseLoop_step (fuel : Nat) (c : List Nat) (rest : List (Option (List Nat)))
    (buf : List Nat) (sk pc : Bool) (hc : c ≠ []) (hbuf : buf.length < CAPACITY) :
    parseLoop (fuel + 1) (some c :: rest) buf sk pc =
      (scanText (buf ++ c.take (CAPACITY - buf.length)) sk pc []).lines ++
        parseLoop fuel
          (if CAPACITY - buf.length < c.length
            then some (c.drop (CAPACITY - buf.length)) :: rest else rest)
          (scanText (buf ++ c.take (CAPACITY - buf.length)) sk pc []).leftover
          (scanText (buf ++ c.take (CAPACITY - buf.length)) sk pc []).skip
          (scanText (buf ++ c.take (CAPACITY - buf.length)) sk pc []).prevCr := by
  have htk : c.take (CAPACITY - buf.length) ≠ [] := take_pos_ne_nil hc (by omega)
  have h2 : (c.take (CAPACITY - buf.length)).isEmpty = false := by
    simpa [List.isEmpty_iff] using htk
  conv_lhs => rw [parseLoop]
  rw [if_neg (by omega)]
  simp only [h2, Bool.false_eq_true, if_false]

theorem parseLoop_eq_specLines (fuel : Nat) : ∀ (chunks : List (Option (List Nat)))
    (buf : List Nat) (sk pc : Bool),
    chunkBytes chunks < fuel →
    (∀ ch ∈ chunks, ∃ l, ch = some l ∧ l ≠ []) →
    noTerm buf →
    (∀ seg ∈ lineSegs buf (concatChunks chunks), seg.length < CAPACITY) →
    parseLoop fuel chunks buf sk pc = specLines sk buf pc (concatChunks chunks) := by
  induction fuel with
  | zero => intro chunks buf sk pc h1; omega
  | succ n ih =>
    intro chunks buf sk pc h1 h2 h3 h4
    have hbuf : buf.length < CAPACITY := by
      obtain ⟨ext, hext⟩ := lineSegs_head_ext (concatChunks chunks) buf
      have h := h4 _ hext
      rw [List.length_append] at h
      omega
    cases chunks with
    | nil =>
      simp only [parseLoop]
      rw [if_neg (by omega)]
      simp [specLines, scanText, concatChunks]
    | cons ch rest =>
      obtain ⟨c, rfl, hc⟩ := h2 ch (by simp)
      rw [parseLoop_step n c rest buf sk pc hc hbuf]
      have hshift := scanText_shift buf h3 (c.take (CAPACITY - buf.length)) sk pc []
      rw [List.nil_append] at hshift
      have hcc : concatChunks (some c :: rest) =
          c.take (CAPACITY - buf.length) ++
            concatChunks (if CAPACITY - buf.length < c.length
              then some (c.drop (CAPACITY - buf.length)) :: rest else rest) := by
        by_cases h : CAPACITY - buf.length < c.length
        · simp only [h, if_true, concatChunks]
          rw [← List.append_assoc, List.take_append_drop]
        · have htake : c.take (CAPACITY - buf.length) = c :=
            List.take_of_length_le (by omega)
          simp [concatChunks, h, htake]
      rw [hcc, hshift]
      set T := c.take (CAPACITY - buf.length) with hT
      set R := (if CAPACITY - buf.length < c.length
        then some (c.drop (CAPACITY - buf.length)) :: rest else rest) with hR
      have hTlen : 0 < T.length := by
        have := take_pos_ne_nil hc (show 0 < CAPACITY - buf.length by omega)
        rw [hT]
        cases h : c.take (CAPACITY - buf.length) with
        | nil => exact absurd h this
        | cons x xs => simp
      have hbytes : chunkBytes R < n := by
        have hTlen' : T.length = min (CAPACITY - buf.length) c.length := by
          rw [hT, List.length_take]
        rw [hR]
        by_cases h : CAPACITY - buf.length < c.length
        · simp only [h, if_true, chunkBytes, List.length_drop]
          simp only [chunkBytes] at h1
          omega
        · simp only [h, if_false]
          simp only [chunkBytes] at h1
          have : 0 < c.length := List.length_pos.mpr hc
          omega
      have h2' : ∀ ch ∈ R, ∃ l, ch = some l ∧ l ≠ [] := by
        intro ch hch
        rw [hR] at hch
        by_cases h : CAPACITY - buf.length < c.length
        · rw [if_pos h] at hch
          rcases List.mem_cons.mp hch with h' | h'
          · refine ⟨c.drop (CAPACITY - buf.length), h', ?_⟩
            intro hnil
            have := congrArg List.length hnil
            rw [List.length_drop] at this
            simp at this
            omega
          · exact h2 _ (by simp [h'])
        · rw [if_neg h] at hch
          exact h2 _ (by simp [hch])
      have hLcarry : (scanText T sk pc buf).leftover = carryAcc buf T :=
        scanText_leftover_carry T sk pc buf
      have h3' : noTerm (scanText T sk pc buf).leftover := by
        rw [hLcarry]; exact carryAcc_noTerm T buf h3
      have h4' : ∀ seg ∈ lineSegs (scanText T sk pc buf).leftover (concatChunks R),
          seg.length < CAPACITY := by
        intro seg hseg
        apply h4
        rw [hcc, lineSegs_append T (concatChunks R) buf]
        rw [hLcarry] at hseg
        exact List.mem_append_right _ hseg
      rw [ih R (scanText T sk pc buf).leftover (scanText T sk pc buf).skip
        (scanText T sk pc buf).prevCr hbytes h2' h3' h4']
      simp only [specLines, scanText_append T (concatChunks R) sk pc buf]
      simp [List.append_assoc]

theorem chunkBytes_rest (c : List Nat) (rest : List (Option (List Nat))) (buf : List Nat)
    (hc : c ≠ []) (hbuf : buf.length < CAPACITY) :
    chunkBytes (if CAPACITY - buf.length < c.length
        then some (c.drop (CAPACITY - buf.length)) :: rest else rest) +
        (c.take (CAPACITY - buf.length)).length = chunkBytes (some c :: rest) ∧
      0 < (c.take (CAPACITY - buf.length)).length := by
  constructor
  · by_cases h : CAPACITY - buf.length < c.length
    · simp only [h, if_true, chunkBytes, List.length_drop, List.length_take]
      omega
    · have htake : c.take (CAPACITY - buf.length) = c := List.take_of_length_le (by omega)
      simp only [h, if_false, chunkBytes, htake]
      omega
  · exact List.length_pos.mpr (take_pos_ne_nil hc (by omega))

theorem parseLoop_fuel (f1 : Nat) : ∀ (f2 : Nat) (chunks : List (Option (List Nat)))
    (buf : List Nat) (sk pc : Bool),
    2 * chunkBytes chunks + 1 + (if CAPACITY ≤ buf.length then 1 else 0) ≤ f1 →
    2 * chunkBytes chunks + 1 + (if CAPACITY ≤ buf.length then 1 else 0) ≤ f2 →
    parseLoop f1 chunks buf sk pc = parseLoop f2 chunks buf sk pc := by
  induction f1 with
  | zero => intro f2 chunks buf sk pc h1; omega
  | succ n ih =>
    intro f2 chunks buf sk pc h1 h2
    obtain ⟨m, rfl⟩ : ∃ m, f2 = m + 1 := ⟨f2 - 1, by omega⟩
    by_cases hbuf : CAPACITY ≤ buf.length
    · rw [if_pos hbuf] at h1 h2
      rw [parseLoop_reset n chunks buf sk pc hbuf, parseLoop_reset m chunks buf sk pc hbuf]
      exact ih m chunks [] true pc (by simp [CAPACITY]; omega) (by simp [CAPACITY]; omega)
    · rw [if_neg hbuf] at h1 h2
      cases chunks with
      | nil => rw [parseLoop_eof n buf sk pc hbuf, parseLoop_eof m buf sk pc hbuf]
      | cons ch rest =>
        cases ch with
        | none =>
          rw [parseLoop_readErr n rest buf sk pc hbuf, parseLoop_readErr m rest buf sk pc hbuf]
        | some c =>
          by_cases hcnil : c = []
          · subst hcnil
            rw [parseLoop_emptyRead n rest buf sk pc hbuf,
              parseLoop_emptyRead m rest buf sk pc hbuf]
          · rw [parseLoop_step n c rest buf sk pc hcnil (by omega),
              parseLoop_step m c rest buf sk pc hcnil (by omega)]
            congr 1
            obtain ⟨heq, hpos⟩ := chunkBytes_rest c rest buf hcnil (by omega)
            simp only [chunkBytes] at heq
            simp only [chunkBytes] at h1 h2
            apply ih
            · have hind : (if CAPACITY ≤
                  (scanText (buf ++ c.take (CAPACITY - buf.length)) sk pc []).leftover.length
                  then 1 else 0) ≤ 1 := by split <;> omega
              omega
            · have hind : (if CAPACITY ≤
                  (scanText (buf ++ c.take (CAPACITY - buf.length)) sk pc []).leftover.length
                  then 1 else 0) ≤ 1 := by split <;> omega
              omega

theorem chunkBytes_map_some_append (parts : List (List Nat)) :
    ∀ l, chunkBytes (parts.map some ++ l) = chunkBytes (parts.map some) + chunkBytes l := by
  induction parts with
  | nil => intro l; simp [chunkBytes]
  | cons p ps ih =>
    intro l
    simp only [List.map_cons, List.cons_append, chunkBytes, List.append_eq, ih]
    omega

theorem concatChunks_map_some (parts : List (List Nat)) :
    concatChunks (parts.map some) = parts.flatten := by
  induction parts with
  | nil => simp [concatChunks]
  | cons p ps ih => simp [concatChunks, ih]

theorem parseLoop_error_tail (fuel : Nat) : ∀ (good : List (List Nat))
    (rest : List (Option (List Nat))) (buf : List Nat) (sk pc : Bool),
    parseLoop fuel (good.map some ++ none :: rest) buf sk pc =
      parseLoop fuel (good.map some) buf sk pc := by
  induction fuel with
  | zero => intros; rfl
  | succ n ih =>
    intro good rest buf sk pc
    by_cases hbuf : CAPACITY ≤ buf.length
    · rw [parseLoop_reset n _ buf sk pc hbuf, parseLoop_reset n _ buf sk pc hbuf]
      exact ih good rest [] true pc
    · cases good with
      | nil =>
        simp only [List.map_nil, List.nil_append]
        rw [parseLoop_readErr n rest buf sk pc hbuf, parseLoop_eof n buf sk pc hbuf]
      | cons g gs =>
        by_cases hgnil : g = []
        · subst hgnil
          simp only [List.map_cons, List.cons_append]
          rw [parseLoop_emptyRead n _ buf sk pc hbuf, parseLoop_emptyRead n _ buf sk pc hbuf]
        · have hstepL := parseLoop_step n g (gs.map some ++ none :: rest) buf sk pc hgnil
            (by omega)
          have hstepR := parseLoop_step n g (gs.map some) buf sk pc hgnil (by omega)
          simp only [List.map_cons, List.cons_append] at hstepL ⊢
          rw [hstepL, hstepR]
          congr 1
          by_cases h : CAPACITY - buf.length < g.length
          · rw [if_pos h, if_pos h]
            have := ih (g.drop (CAPACITY - buf.length) :: gs) rest
              (scanText (buf ++ g.take (CAPACITY - buf.length)) sk pc []).leftover
              (scanText (buf ++ g.take (CAPACITY - buf.length)) sk pc []).skip
              (scanText (buf ++ g.take (CAPACITY - buf.length)) sk pc []).prevCr
            simpa using this
          · rw [if_neg h, if_neg h]
            exact ih gs rest _ _ _

theorem parse_single_chunk (x : List Nat) (hx : x ≠ [])
    (hseg : ∀ seg ∈ lineSegs [] x, seg.length < CAPACITY) :
    SysInfo_ParseText [some x] = specLines false [] false x := by
  unfold SysInfo_ParseText
  have h := parseLoop_eq_specLines (2 * chunkBytes [some x] + 2) [some x] [] false false
    (by simp [chunkBytes]; omega)
    (by intro ch hch; simp at hch; exact ⟨x, hch, hx⟩)
    (by intro b hb; simp at hb)
    (by simpa [concatChunks] using hseg)
  simpa [concatChunks] using h

theorem specLines_term (sk : Bool) (p : List Nat) (pc : Bool) (b : Nat)
    (hb : isTerm b = true) (s : List Nat) :
    specLines sk p pc (b :: s) =
      (if !sk && (!p.isEmpty || b != 10 || !pc) then [p] else []) ++
        specLines false [] (b == 13) s := by
  simp only [specLines, scanText, hb, if_true]
  split <;> simp

/-! ## Properties of the comma tokenizer -/

theorem splitComma_eq_some : ∀ (l f r : List Nat), splitComma l = some (f, r) →
    l = f ++ 44 :: r := by
  intro l
  induction l with
  | nil => intro f r h; simp [splitComma] at h
  | cons b bs ih =>
    intro f r h
    by_cases hb : b = 44
    · subst hb
      rw [splitComma, if_pos (by simp)] at h
      obtain ⟨rfl, rfl⟩ := Prod.mk.injEq .. ▸ (Option.some.injEq .. ▸ h)
      simp
    · rw [splitComma, if_neg (by simpa using hb)] at h
      cases hs : splitComma bs with
      | none => rw [hs] at h; simp at h
      | some p =>
        rw [hs] at h
        simp at h
        obtain ⟨h1, h2⟩ := h
        subst h1
        subst h2
        have := ih p.1 p.2 (by rw [hs])
        simp [this]

theorem splitComma_append (f : List Nat) : ∀ (r : List Nat), ¬ 44 ∈ f →
    splitComma (f ++ 44 :: r) = some (f, r) := by
  induction f with
  | nil => intro r _; simp [splitComma]
  | cons b bs ih =>
    intro r h
    have hb : ¬ b = 44 := fun e => h (by simp [e])
    rw [List.cons_append, splitComma, if_neg (by simpa using hb),
      ih r (fun e => h (by simp [e]))]
    rfl

theorem commaSplitLoop_ne_nil : ∀ (b : Nat) (line : List Nat), commaSplitLoop b line ≠ [] := by
  intro b line
  match b with
  | 0 => simp [commaSplitLoop]
  | k + 1 =>
    rw [commaSplitLoop]
    cases hs : splitComma line with
    | none => simp
    | some p =>
      obtain ⟨f, r⟩ := p
      by_cases hk : k = 0
      · simp [hk]
      · simp [hk]

theorem intercalate_cons_of_ne_nil (sep a : List Nat) (l : List (List Nat)) (h : l ≠ []) :
    List.intercalate sep (a :: l) = a ++ sep ++ List.intercalate sep l := by
  cases l with
  | nil => exact absurd rfl h
  | cons b t => simp [List.intercalate, List.intersperse]

theorem commaSplitLoop_intercalate : ∀ (b : Nat) (line : List Nat),
    List.intercalate [44] (commaSplitLoop b line) = line := by
  intro b
  induction b with
  | zero => intro line; simp [commaSplitLoop, List.intercalate]
  | succ k ih =>
    intro line
    rw [commaSplitLoop]
    cases hs : splitComma line with
    | none => simp [List.intercalate]
    | some p =>
      obtain ⟨f, r⟩ := p
      by_cases hk : k = 0
      · simp [hk, List.intercalate]
      · dsimp only
        rw [if_neg hk]
        rw [intercalate_cons_of_ne_nil [44] f _ (commaSplitLoop_ne_nil k r), ih r,
          splitComma_eq_some line f r hs]
        simp

theorem commaSplitLoop_length : ∀ (b : Nat) (line : List Nat), 1 ≤ b →
    (commaSplitLoop b line).length ≤ b := by
  intro b
  induction b with
  | zero => intro line h; omega
  | succ k ih =>
    intro line _
    rw [commaSplitLoop]
    cases hs : splitComma line with
    | none => simp
    | some p =>
      obtain ⟨f, r⟩ := p
      by_cases hk : k = 0
      · simp [hk]
      · dsimp only
        rw [if_neg hk]
        simp only [List.length_cons]
        have := ih r (by omega)
        omega

theorem commaSplitLoop_fold : ∀ (fields : List (List Nat)) (rest : List Nat),
    (∀ f ∈ fields, ¬ 44 ∈ f) →
    commaSplitLoop (fields.length + 1) ((fields.map (fun f => f ++ [44])).flatten ++ rest) =
      fields ++ [rest] := by
  intro fields
  induction fields with
  | nil =>
    intro rest _
    simp only [List.length_nil, List.map_nil, List.flatten_nil, List.nil_append]
    rw [commaSplitLoop]
    cases hs : splitComma rest with
    | none => rfl
    | some p => simp
  | cons f fs ih =>
    intro rest h
    have hf : ¬ 44 ∈ f := h f (by simp)
    have hshape : ((f :: fs).map (fun x => x ++ [44])).flatten ++ rest =
        f ++ 44 :: ((fs.map (fun x => x ++ [44])).flatten ++ rest) := by
      simp
    rw [hshape, List.length_cons, commaSplitLoop, splitComma_append f _ hf]
    dsimp only
    rw [if_neg (Nat.succ_ne_zero fs.length)]
    rw [ih rest (fun x hx => h x (by simp [hx]))]
    rfl

/-! ## Terminator styles -/

theorem styleJoin_cons (t l : List Nat) (ls : List (List Nat)) :
    styleJoin t (l :: ls) = l ++ (t ++ styleJoin t ls) := by
  simp [styleJoin]

theorem specLines_style_lf (contents : List (List Nat)) (h : ∀ l ∈ contents, noTerm l) :
    specLines false [] false (styleJoin [10] contents) = contents := by
  induction contents with
  | nil => simp [styleJoin, specLines, scanText]
  | cons l ls ih =>
    have hl : noTerm l := h l (by simp)
    have hls : ∀ x ∈ ls, noTerm x := fun x hx => h x (by simp [hx])
    rw [styleJoin_cons, specLines_shift l hl _ false false [], List.nil_append,
      List.singleton_append, specLines_term false l false 10 (by decide) _,
      show ((10 : Nat) == 13) = false from rfl, ih hls]
    simp

theorem specLines_style_cr (contents : List (List Nat)) (h : ∀ l ∈ contents, noTerm l) :
    ∀ pc, specLines false [] pc (styleJoin [13] contents) = contents := by
  induction contents with
  | nil => intro pc; simp [styleJoin, specLines, scanText]
  | cons l ls ih =>
    intro pc
    have hl : noTerm l := h l (by simp)
    have hls : ∀ x ∈ ls, noTerm x := fun x hx => h x (by simp [hx])
    rw [styleJoin_cons, specLines_shift l hl _ false pc [], List.nil_append,
      List.singleton_append, specLines_term false l pc 13 (by decide) _,
      ih hls ((13 : Nat) == 13)]
    simp

theorem specLines_style_crlf (contents : List (List Nat)) (h : ∀ l ∈ contents, noTerm l) :
    ∀ pc, specLines false [] pc (styleJoin [13, 10] contents) = contents := by
  induction contents with
  | nil => intro pc; simp [styleJoin, specLines, scanText]
  | cons l ls ih =>
    intro pc
    have hl : noTerm l := h l (by simp)
    have hls : ∀ x ∈ ls, noTerm x := fun x hx => h x (by simp [hx])
    have hshape : [13, 10] ++ styleJoin [13, 10] ls = 13 :: 10 :: styleJoin [13, 10] ls := rfl
    rw [styleJoin_cons, specLines_shift l hl _ false pc [], List.nil_append, hshape,
      specLines_term false l pc 13 (by decide) _,
      specLines_term false [] (13 == 13) 10 (by decide) _,
      ih hls ((10 : Nat) == 13)]
    simp

theorem lineSegs_join_single (b : Nat) (hb : isTerm b = true) (c : List (List Nat))
    (h : ∀ l ∈ c, noTerm l) : lineSegs [] (styleJoin [b] c) = c ++ [[]] := by
  induction c with
  | nil => simp [styleJoin, lineSegs]
  | cons l ls ih =>
    have hl : noTerm l := h l (by simp)
    have hls : ∀ x ∈ ls, noTerm x := fun x hx => h x (by simp [hx])
    rw [styleJoin_cons, lineSegs_shift l hl _ [], List.nil_append, List.singleton_append]
    simp only [lineSegs, hb, if_true]
    rw [ih hls]
    simp

theorem lineSegs_join_crlf (c : List (List Nat)) (h : ∀ l ∈ c, noTerm l) :
    ∀ seg ∈ lineSegs [] (styleJoin [13, 10] c), seg ∈ c ∨ seg = [] := by
  induction c with
  | nil =>
    intro seg hseg
    simp [styleJoin, lineSegs] at hseg
    exact Or.inr hseg
  | cons l ls ih =>
    intro seg hseg
    have hl : noTerm l := h l (by simp)
    have hls : ∀ x ∈ ls, noTerm x := fun x hx => h x (by simp [hx])
    have hshape : [13, 10] ++ styleJoin [13, 10] ls = 13 :: 10 :: styleJoin [13, 10] ls := rfl
    rw [styleJoin_cons, lineSegs_shift l hl _ [], List.nil_append, hshape] at hseg
    simp only [lineSegs, isTerm, show ((13 : Nat) == 13 || (13 : Nat) == 10) = true from rfl,
      show ((10 : Nat) == 13 || (10 : Nat) == 10) = true from rfl, if_true,
      List.mem_cons] at hseg
    rcases hseg with rfl | rfl | hseg
    · exact Or.inl (by simp)
    · exact Or.inr rfl
    · rcases ih hls seg hseg with h' | h'
      · exact Or.inl (by simp [h'])
      · exact Or.inr h'

theorem styleJoin_ne_nil (t : List Nat) (ht : t ≠ []) (c : List (List Nat)) (hc : c ≠ []) :
    styleJoin t c ≠ [] := by
  cases c with
  | nil => exact absurd rfl hc
  | cons l ls =>
    rw [styleJoin_cons]
    intro h
    rcases List.append_eq_nil.mp h with ⟨_, h2⟩
    exact ht (List.append_eq_nil.mp h2).1

/-! ## The two record extractors -/

theorem inspectLog_match (d line : List Nat) (h : line.take 15 = commentUpdatedTag) :
    SysInfoLineParser_InspectLog d line = (line.drop 15).take 19 := by
  have hlen : 15 ≤ line.length := by
    have hle := congrArg List.length h
    simp only [List.length_take, commentUpdatedTag] at hle
    simp at hle
    omega
  have hct : commentUpdatedTag.length = 15 := rfl
  unfold SysInfoLineParser_InspectLog
  rw [hct, if_neg (by omega), if_neg (by simp [h])]

theorem inspectLog_nomatch (d line : List Nat) (h : line.take 15 ≠ commentUpdatedTag) :
    SysInfoLineParser_InspectLog d line = d := by
  have hct : commentUpdatedTag.length = 15 := rfl
  unfold SysInfoLineParser_InspectLog
  rw [hct]
  by_cases hlen : line.length < 15
  · rw [if_pos hlen]
  · rw [if_neg hlen, if_pos h]

theorem parseVer_cases (fw v : List Nat) :
    parseVer fw v = fw ∨
      ∃ cup nup, parseVer fw v = cup ++ [45] ++ nup ∧ cup.length + 1 + nup.length + 1 ≤ 16 := by
  unfold parseVer
  split_ifs with h1 h2 h3 h4 h5
  · exact Or.inl rfl
  · exact Or.inl rfl
  · exact Or.inl rfl
  · exact Or.inl rfl
  · exact Or.inl rfl
  · exact Or.inr ⟨_, _, rfl, by omega⟩

theorem productLog_atomic_aux (fw line : List Nat) :
    SysInfoLineParser_ProductLog fw line = fw ∨
      ∃ cup nup, SysInfoLineParser_ProductLog fw line = cup ++ [45] ++ nup ∧
        cup.length + 1 + nup.length + 1 ≤ 16 := by
  unfold SysInfoLineParser_ProductLog
  cases SysInfo_CommaSplit 10 line with
  | nil => exact Or.inl rfl
  | cons e0 t =>
    cases t with
    | nil => exact Or.inl rfl
    | cons e1 rest =>
      dsimp only
      by_cases h1 : e0.length = 0 ∨ ¬ SysInfo_IsOnlyDigits e0
      · rw [if_pos h1]; exact Or.inl rfl
      · rw [if_neg h1]
        by_cases h2 : e1 = dataListBytes
        · rw [if_pos h2]
          rcases rest with _ | ⟨e2, _ | ⟨e3, _ | ⟨e4, _ | ⟨e5, _ | ⟨e6, _ | ⟨e7, rest'⟩⟩⟩⟩⟩⟩
          · exact Or.inl rfl
          · exact Or.inl rfl
          · exact Or.inl rfl
          · exact Or.inl rfl
          · exact Or.inl rfl
          · exact Or.inl rfl
          · dsimp only
            by_cases h3 : e2 ≠ [79, 75]
            · rw [if_pos h3]; exact Or.inl rfl
            · rw [if_neg h3]; exact parseVer_cases fw e7
        · rw [if_neg h2]; exact Or.inl rfl

/-! ## Claims -/

/-- C1: for every input byte stream, delivering the whole input as one single
chunk to `SysInfo_ParseText` yields exactly the same sequence of consumer
invocations as delivering it broken into arbitrary smaller nonempty chunks
(including one byte per read), provided no line of the input overflows the
512-byte buffer. -/
theorem C1_chunking_invariance (input : List Nat) (parts : List (List Nat))
    (hne : ∀ p ∈ parts, p ≠ [])
    (hjoin : parts.flatten = input)
    (hseg : ∀ seg ∈ lineSegs [] input, seg.length < CAPACITY) :
    SysInfo_ParseText (parts.map some) = SysInfo_ParseText [some input] := by
  have hccL : concatChunks (parts.map some) = input := by
    rw [concatChunks_map_some, hjoin]
  by_cases hnil : input = []
  · subst hnil
    have hparts : parts = [] := by
      cases parts with
      | nil => rfl
      | cons p ps =>
        exfalso
        have hp := hne p (by simp)
        have hj : p ++ ps.flatten = [] := by simpa using hjoin
        exact hp (List.append_eq_nil.mp hj).1
    subst hparts
    decide
  · have hLHS := parseLoop_eq_specLines (2 * chunkBytes (parts.map some) + 2)
      (parts.map some) [] false false (by omega)
      (by
        intro ch hch
        obtain ⟨p, hp, rfl⟩ := List.mem_map.mp hch
        exact ⟨p, rfl, hne p hp⟩)
      (by intro b hb; simp at hb)
      (by rw [hccL]; exact hseg)
    have hRHS := parseLoop_eq_specLines (2 * chunkBytes [some input] + 2)
      [some input] [] false false (by simp [chunkBytes]; omega)
      (by intro ch hch; simp at hch; exact ⟨input, hch, hnil⟩)
      (by intro b hb; simp at hb)
      (by simpa [concatChunks] using hseg)
    unfold SysInfo_ParseText
    rw [hLHS, hRHS, hccL]
    simp [concatChunks]

theorem C1_chunking_invariance_witness :
    SysInfo_ParseText ([[97], [10, 98]].map some) = SysInfo_ParseText [some [97, 10, 98]] :=
  C1_chunking_invariance [97, 10, 98] [[97], [10, 98]] (by decide) (by decide) (by decide)

/-- C2: for every sequence of line contents, none containing CR or LF and
none overflowing the buffer, `SysInfo_ParseText` emits the same sequence of
lines whether the contents are terminated with LF, with CR, or with CRLF
(each style appends its terminator after every line). -/
theorem C2_terminator_styles (contents : List (List Nat))
    (hnt : ∀ l ∈ contents, noTerm l)
    (hlen : ∀ l ∈ contents, l.length < CAPACITY) :
    SysInfo_ParseText [some (styleJoin [10] contents)] =
        SysInfo_ParseText [some (styleJoin [13] contents)] ∧
      SysInfo_ParseText [some (styleJoin [10] contents)] =
        SysInfo_ParseText [some (styleJoin [13, 10] contents)] := by
  have hcap : (0 : Nat) < CAPACITY := by decide
  by_cases hc : contents = []
  · subst hc; exact ⟨rfl, rfl⟩
  · have hlf : SysInfo_ParseText [some (styleJoin [10] contents)] = contents := by
      rw [parse_single_chunk _ (styleJoin_ne_nil [10] (by simp) contents hc)
        (by
          rw [lineSegs_join_single 10 (by decide) contents hnt]
          intro seg hseg
          rcases List.mem_append.mp hseg with h' | h'
          · exact hlen seg h'
          · simp at h'; simp [h', hcap]),
        specLines_style_lf contents hnt]
    have hcr : SysInfo_ParseText [some (styleJoin [13] contents)] = contents := by
      rw [parse_single_chunk _ (styleJoin_ne_nil [13] (by simp) contents hc)
        (by
          rw [lineSegs_join_single 13 (by decide) contents hnt]
          intro seg hseg
          rcases List.mem_append.mp hseg with h' | h'
          · exact hlen seg h'
          · simp at h'; simp [h', hcap]),
        specLines_style_cr contents hnt false]
    have hcrlf : SysInfo_ParseText [some (styleJoin [13, 10] contents)] = contents := by
      rw [parse_single_chunk _ (styleJoin_ne_nil [13, 10] (by simp) contents hc)
        (by
          intro seg hseg
          rcases lineSegs_join_crlf contents hnt seg hseg with h' | h'
          · exact hlen seg h'
          · simp [h', hcap]),
        specLines_style_crlf contents hnt false]
    rw [hlf, hcr, hcrlf]
    exact ⟨rfl, rfl⟩

theorem C2_terminator_styles_witness :
    SysInfo_ParseText [some (styleJoin [10] [[97], [98]])] =
        SysInfo_ParseText [some (styleJoin [13] [[97], [98]])] ∧
      SysInfo_ParseText [some (styleJoin [10] [[97], [98]])] =
        SysInfo_ParseText [some (styleJoin [13, 10] [[97], [98]])] :=
  C2_terminator_styles [[97], [98]] (by decide) (by decide)

/-- C3: the splitter never reports a spurious empty line for the LF half of
a CRLF pair.  Concretely, the stream `"a\r\nb"` produces exactly the lines
`"a"` and `"b"`.  In general, the inner scan suppresses a zero-length
LF-terminated segment exactly when the `prev_cr` flag is set, and `prev_cr`
is set after scanning past a CR terminator and cleared after scanning past
an LF terminator. -/
theorem C3_crlf_no_spurious_empty :
    SysInfo_ParseText [some [97, 13, 10, 98]] = [[97], [98]] ∧
    (∀ (bs : List Nat) (prevCr : Bool),
      (scanText (10 :: bs) false prevCr []).lines =
        (if prevCr then [] else [[]]) ++ (scanText bs false false []).lines) ∧
    (∀ (s : List Nat) (sk pc : Bool) (acc : List Nat),
      (scanText (s ++ [13]) sk pc acc).prevCr = true ∧
      (scanText (s ++ [10]) sk pc acc).prevCr = false) := by
  refine ⟨by decide, ?_, ?_⟩
  · intro bs prevCr
    cases prevCr <;> simp [scanText, isTerm]
  · intro s sk pc acc
    constructor
    · rw [scanText_append s [13] sk pc acc]
      simp [scanText, isTerm]
    · rw [scanText_append s [10] sk pc acc]
      simp [scanText, isTerm]

/-- C6: `SysInfo_CommaSplit` never produces more than `max_entries` fields;
all content after the `(max_entries - 1)`-th comma, commas included, is
folded verbatim into the last field; splitting `"a,b,c"` with max 2 gives
`"a"` and `"b,c"`; splitting the empty line with max 5 gives exactly one
empty field; splitting any line with max 0 gives zero fields. -/
theorem C6_comma_tokenizer :
    (∀ (m : Nat) (line : List Nat), (SysInfo_CommaSplit m line).length ≤ m) ∧
    (∀ (fields : List (List Nat)) (rest : List Nat), (∀ f ∈ fields, ¬ 44 ∈ f) →
      SysInfo_CommaSplit (fields.length + 1)
        ((fields.map (fun f => f ++ [44])).flatten ++ rest) = fields ++ [rest]) ∧
    SysInfo_CommaSplit 2 [97, 44, 98, 44, 99] = [[97], [98, 44, 99]] ∧
    SysInfo_CommaSplit 5 [] = [[]] ∧
    (∀ line : List Nat, SysInfo_CommaSplit 0 line = []) := by
  refine ⟨?_, ?_, by decide, by decide, ?_⟩
  · intro m line
    unfold SysInfo_CommaSplit
    by_cases hm : m = 0
    · simp [hm]
    · rw [if_neg hm]
      exact commaSplitLoop_length m line (by omega)
  · intro fields rest h
    unfold SysInfo_CommaSplit
    rw [if_neg (by omega)]
    exact commaSplitLoop_fold fields rest h
  · intro line; simp [SysInfo_CommaSplit]

theorem C6_comma_tokenizer_witness :
    SysInfo_CommaSplit ([[97]].length + 1)
        (([[97]].map (fun f => f ++ [44])).flatten ++ [98, 44, 99]) = [[97]] ++ [[98, 44, 99]] :=
  C6_comma_tokenizer.2.1 [[97]] [98, 44, 99] (by decide)

/-- C7: `SysInfoLineParser_InspectLog` overwrites the `assembly_date` field,
truncated to the field's 19-byte capacity, on every line that begins with
the exact tag `"CommentUpdated="`, leaves the field untouched on every
other line, and for the line sequence `["X=1", "CommentUpdated=2020",
"noise", "CommentUpdated=2021"]`, delivered in order from any starting
field value, the final stored value is `"2021"`. -/
theorem C7_inspect_log :
    (∀ d line : List Nat, line.take 15 = commentUpdatedTag →
      SysInfoLineParser_InspectLog d line = (line.drop 15).take 19) ∧
    (∀ d line : List Nat, line.take 15 ≠ commentUpdatedTag →
      SysInfoLineParser_InspectLog d line = d) ∧
    (∀ d : List Nat,
      List.foldl SysInfoLineParser_InspectLog d
        [[88, 61, 49], commentUpdatedTag ++ [50, 48, 50, 48], [110, 111, 105, 115, 101],
          commentUpdatedTag ++ [50, 48, 50, 49]] = [50, 48, 50, 49]) := by
  refine ⟨inspectLog_match, inspectLog_nomatch, ?_⟩
  intro d
  have h1 : SysInfoLineParser_InspectLog d [88, 61, 49] = d :=
    inspectLog_nomatch d _ (by decide)
  have h2 : SysInfoLineParser_InspectLog d (commentUpdatedTag ++ [50, 48, 50, 48]) =
      [50, 48, 50, 48] := by
    rw [inspectLog_match d _ (by decide)]
    decide
  simp only [List.foldl_cons, List.foldl_nil, h1, h2]
  decide

theorem C7_inspect_log_witness :
    SysInfoLineParser_InspectLog [] (commentUpdatedTag ++ [50, 48]) =
      (((commentUpdatedTag ++ [50, 48]).drop 15).take 19) :=
  C7_inspect_log.1 [] (commentUpdatedTag ++ [50, 48]) (by decide)

/-- C9: a failing read makes `SysInfo_ParseText` stop exactly as a normal
end of stream would — whatever follows the failing read is never seen, no
error is surfaced, and any buffered partial line (unconsumed bytes with no
terminator) is still delivered to the consumer as one final line. -/
theorem C9_read_error :
    (∀ (good : List (List Nat)) (rest : List (Option (List Nat))),
      SysInfo_ParseText (good.map some ++ none :: rest) =
        SysInfo_ParseText (good.map some)) ∧
    (∀ (fuel : Nat) (rest : List (Option (List Nat))) (buf : List Nat) (sk pc : Bool),
      buf.length < CAPACITY → buf ≠ [] →
      parseLoop (fuel + 1) (none :: rest) buf sk pc = [buf]) := by
  constructor
  · intro good rest
    unfold SysInfo_ParseText
    rw [parseLoop_error_tail _ good rest [] false false]
    apply parseLoop_fuel
    · have h := chunkBytes_map_some_append good (none :: rest)
      have hz : chunkBytes (none :: rest) = 0 := rfl
      simp only [CAPACITY, List.length_nil]
      rw [if_neg (by omega)]
      omega
    · simp only [CAPACITY, List.length_nil]
      rw [if_neg (by omega)]
      omega
  · intro fuel rest buf sk pc h1 h2
    rw [parseLoop_readErr fuel rest buf sk pc (by omega)]
    simp [h2]

theorem C9_read_error_witness : parseLoop 1 [none] [97] false false = [[97]] :=
  C9_read_error.2 0 [] [97] false false (by decide) (by decide)

/-- C10: for every line and every positive `max_entries`, the fields
returned by `SysInfo_CommaSplit` exactly partition the line: joining them
with single commas reconstructs the input byte for byte (so the first field
starts at the line's first byte, each later field starts one byte — the
skipped comma — past the end of the previous one, and the last field runs
to the end of the line). -/
theorem C10_fields_partition (m : Nat) (line : List Nat) (h : 0 < m) :
    List.intercalate [44] (SysInfo_CommaSplit m line) = line := by
  unfold SysInfo_CommaSplit
  rw [if_neg (by omega)]
  exact commaSplitLoop_intercalate m line

theorem C10_fields_partition_witness :
    List.intercalate [44] (SysInfo_CommaSplit 2 [97, 44, 98]) = [97, 44, 98] :=
  C10_fields_partition 2 [97, 44, 98] (by decide)

/-- C8: `SysInfoLineParser_ProductLog` is atomic: for every input line the
`original_firmware` field either receives the whole composed `cup-nup`
value (which, with the added dash and NUL terminator, fits in the 16-byte
field) or is left completely unchanged.  In particular it is unchanged on a
line with fewer than 2 fields, on a non-numeric first field, on a missing
`cup:` token, and when the composed value would exceed the field capacity;
on the well-formed line `"70,DataList,OK,a,b,c,d,nup:20U cup:9.0.0"` the
stored value is `"9.0.0-20U"`. -/
theorem C8_product_log_atomic :
    (∀ fw line : List Nat,
      SysInfoLineParser_ProductLog fw line = fw ∨
        ∃ cup nup, SysInfoLineParser_ProductLog fw line = cup ++ [45] ++ nup ∧
          cup.length + 1 + nup.length + 1 ≤ 16) ∧
    (∀ fw : List Nat, SysInfoLineParser_ProductLog fw
        ([55, 48, 44] ++ dataListBytes ++ [44, 79, 75, 44, 97, 44, 98, 44, 99, 44, 100, 44] ++
          [110, 117, 112, 58, 50, 48, 85, 32, 99, 117, 112, 58, 57, 46, 48, 46, 48]) =
      [57, 46, 48, 46, 48, 45, 50, 48, 85]) ∧
    (∀ fw : List Nat, SysInfoLineParser_ProductLog fw
        ([55, 48, 44] ++ dataListBytes ++ [44, 79, 75, 44, 97, 44, 98, 44, 99, 44, 100, 44] ++
          [110, 117, 112, 58, 50, 48, 85]) = fw) ∧
    (∀ fw : List Nat, SysInfoLineParser_ProductLog fw
        ([55, 48, 44] ++ dataListBytes ++ [44, 79, 75, 44, 97, 44, 98, 44, 99, 44, 100, 44] ++
          nupTag ++ List.replicate 8 65 ++ [32] ++ cupTag ++ List.replicate 8 66) = fw) ∧
    (∀ fw : List Nat, SysInfoLineParser_ProductLog fw [55] = fw) ∧
    (∀ fw : List Nat, SysInfoLineParser_ProductLog fw
        ([120, 44] ++ dataListBytes ++ [44, 79, 75]) = fw) :=
  ⟨productLog_atomic_aux, fun _ => rfl, fun _ => rfl, fun _ => rfl, fun _ => rfl, fun _ => rfl⟩

/-- C4 (amended): after the buffer fills completely with no terminator, the
512 buffered bytes of the over-length line are discarded; but if the stream
then ends before any further terminator, the bytes of that same over-length
line read after the overflow reset are still flushed to the consumer as a
final line — the end-of-stream flush does not consult the overflow flag.
Nothing is delivered only when no bytes arrived after the reset. -/
theorem C4_overflow_tail_flushed (pre extra : List Nat) (hp : noTerm pre)
    (hplen : pre.length = CAPACITY) (he : noTerm extra) (helen : extra.length < CAPACITY) :
    SysInfo_ParseText [some (pre ++ extra)] = if extra.isEmpty then [] else [extra] := by
  have hcap : CAPACITY = 512 := rfl
  have hprene : pre ≠ [] := by
    intro h
    rw [h] at hplen
    simp [CAPACITY] at hplen
  have hcb : chunkBytes [some (pre ++ extra)] = pre.length + extra.length := by
    simp [chunkBytes]
  unfold SysInfo_ParseText
  obtain ⟨f, hf⟩ : ∃ f, 2 * chunkBytes [some (pre ++ extra)] + 2 = f + 1 :=
    ⟨2 * chunkBytes [some (pre ++ extra)] + 1, rfl⟩
  have hfval : f = 2 * (pre.length + extra.length) + 1 := by
    rw [hcb] at hf
    omega
  rw [hf, parseLoop_step f (pre ++ extra) [] [] false false
    (by simp [hprene]) (by simp [CAPACITY])]
  have hnow : CAPACITY - ([] : List Nat).length = pre.length := by simp [hplen]
  rw [hnow, List.take_left, List.nil_append, scanText_noTerm pre hp false false []]
  simp only [List.nil_append, List.length_append]
  by_cases hext : extra = []
  · subst hext
    rw [if_neg (by simp)]
    obtain ⟨f1, hf1⟩ : ∃ f1, f = f1 + 1 := ⟨f - 1, by omega⟩
    rw [hf1, parseLoop_reset f1 [] pre false false (by omega)]
    obtain ⟨f2, hf2⟩ : ∃ f2, f1 = f2 + 1 := ⟨f1 - 1, by simp at hfval; omega⟩
    rw [hf2, parseLoop_eof f2 [] true false (by simp [CAPACITY])]
  · have hextlen : 0 < extra.length := List.length_pos.mpr hext
    rw [if_pos (by omega)]
    rw [List.drop_left]
    obtain ⟨f1, hf1⟩ : ∃ f1, f = f1 + 1 := ⟨f - 1, by omega⟩
    rw [hf1, parseLoop_reset f1 [some extra] pre false false (by omega)]
    obtain ⟨f2, hf2⟩ : ∃ f2, f1 = f2 + 1 := ⟨f1 - 1, by omega⟩
    rw [hf2, parseLoop_step f2 extra [] [] true false hext (by simp [CAPACITY])]
    have htake : extra.take (CAPACITY - ([] : List Nat).length) = extra := by
      apply List.take_of_length_le
      simp
      omega
    rw [htake, List.nil_append, scanText_noTerm extra he true false []]
    simp only [List.nil_append]
    rw [if_neg (by simp; omega)]
    obtain ⟨f3, hf3⟩ : ∃ f3, f2 = f3 + 1 := ⟨f2 - 1, by omega⟩
    rw [hf3, parseLoop_eof f3 extra true false (by omega)]

set_option maxRecDepth 10000 in
/-- C4 counterexample: the stream of 512 `'a'` bytes followed by `'b'` with
no terminator overflows the buffer, and the stream ends with the byte `'b'`
of the over-length line still buffered; the claim says that byte is NOT
delivered, but `SysInfo_ParseText` delivers it as a final line. -/
theorem C4_counterexample :
    SysInfo_ParseText [some (List.replicate CAPACITY 97 ++ [98])] = [[98]] := by
  decide

set_option maxRecDepth 10000 in
theorem C4_overflow_tail_flushed_witness :
    SysInfo_ParseText [some (List.replicate CAPACITY 97 ++ [98])] =
      if ([98] : List Nat).isEmpty then [] else [[98]] :=
  C4_overflow_tail_flushed (List.replicate CAPACITY 97) [98] (by decide) (by decide)
    (by decide) (by decide)

/-- C5 (amended): when the buffer becomes completely full with no terminator
found, the 512 buffered bytes of the over-length line are discarded without
being reported to the consumer, the rest of that line up to the next
terminator is suppressed as well (the terminator itself reports nothing
because `skip_line` is set), and everything after that terminator is
processed as if the over-length line had never existed. -/
theorem C5_overflow_discards_prefix (pre mid tail : List Nat) (t : Nat)
    (ht : isTerm t = true)
    (hp : noTerm pre) (hplen : pre.length = CAPACITY)
    (hm : noTerm mid) (hmlen : mid.length < CAPACITY)
    (hsegs : ∀ seg ∈ lineSegs [] tail, seg.length < CAPACITY) :
    SysInfo_ParseText [some (pre ++ (mid ++ t :: tail))] =
      specLines false [] (t == 13) tail := by
  have hcap : CAPACITY = 512 := rfl
  have hprene : pre ≠ [] := by
    intro h
    rw [h] at hplen
    simp [CAPACITY] at hplen
  have hcb : chunkBytes [some (pre ++ (mid ++ t :: tail))] =
      (pre ++ (mid ++ t :: tail)).length := by
    simp [chunkBytes]
  have hlens : (pre ++ (mid ++ t :: tail)).length =
      pre.length + mid.length + tail.length + 1 := by
    simp
    omega
  unfold SysInfo_ParseText
  obtain ⟨f, hf⟩ : ∃ f, 2 * chunkBytes [some (pre ++ (mid ++ t :: tail))] + 2 = f + 1 :=
    ⟨2 * chunkBytes [some (pre ++ (mid ++ t :: tail))] + 1, rfl⟩
  have hfval : f = 2 * (pre.length + mid.length + tail.length + 1) + 1 := by
    rw [hcb, hlens] at hf
    omega
  rw [hf, parseLoop_step f (pre ++ (mid ++ t :: tail)) [] [] false false
    (by simp [hprene]) (by simp [CAPACITY])]
  have hnow : CAPACITY - ([] : List Nat).length = pre.length := by simp [hplen]
  rw [hnow, List.take_left, List.nil_append, scanText_noTerm pre hp false false []]
  simp only [List.nil_append]
  rw [if_pos (by rw [hlens]; omega), List.drop_left]
  obtain ⟨f1, hf1⟩ : ∃ f1, f = f1 + 1 := ⟨f - 1, by omega⟩
  rw [hf1, parseLoop_reset f1 [some (mid ++ t :: tail)] pre false false (by omega)]
  have hmain := parseLoop_eq_specLines f1 [some (mid ++ t :: tail)] [] true false
    (by
      have : chunkBytes [some (mid ++ t :: tail)] = (mid ++ t :: tail).length := by
        simp [chunkBytes]
      rw [this]
      simp only [List.length_append, List.length_cons]
      omega)
    (by
      intro ch hch
      simp at hch
      exact ⟨mid ++ t :: tail, hch, by simp⟩)
    (by intro b hb; simp at hb)
    (by
      intro seg hin
      have hccx : concatChunks [some (mid ++ t :: tail)] = mid ++ t :: tail := by
        simp [concatChunks]
      rw [hccx, lineSegs_shift mid hm _ [], List.nil_append] at hin
      simp only [lineSegs, ht, if_true, List.mem_cons] at hin
      rcases hin with rfl | hin
      · exact hmlen
      · exact hsegs seg hin)
  rw [hmain]
  have hccx : concatChunks [some (mid ++ t :: tail)] = mid ++ t :: tail := by
    simp [concatChunks]
  rw [hccx, specLines_shift mid hm (t :: tail) true false [], List.nil_append,
    specLines_term true mid false t ht tail]
  simp

set_option maxRecDepth 10000 in
/-- C5 counterexample: for the stream of 512 `'a'` bytes, then LF, then
`'b'`, the claim predicts that the 512-byte buffered prefix of the
over-length line is reported to the consumer; `SysInfo_ParseText` never
reports it — the only delivered line is `"b"`. -/
theorem C5_counterexample :
    SysInfo_ParseText [some (List.replicate CAPACITY 97 ++ [10, 98])] = [[98]] ∧
      ¬ List.replicate CAPACITY 97 ∈
        SysInfo_ParseText [some (List.replicate CAPACITY 97 ++ [10, 98])] := by
  have h : SysInfo_ParseText [some (List.replicate CAPACITY 97 ++ [10, 98])] = [[98]] := by
    decide
  refine ⟨h, ?_⟩
  rw [h]
  decide

set_option maxRecDepth 10000 in
theorem C5_overflow_discards_prefix_witness :
    SysInfo_ParseText [some (List.replicate CAPACITY 97 ++ ([] ++ 10 :: [98]))] =
      specLines false [] (10 == 13) [98] :=
  C5_overflow_discards_prefix (List.replicate CAPACITY 97) [] [98] 10 (by decide) (by decide)
    (by decide) (by decide) (by decide) (by decide)

end GM9
